import Mathlib

/-!
Shallow embedding of the go-args command-line argument parser
(`parser.go` of github.com/AmedMoore/go-args) together with proofs about
its specification.

Modelling conventions:
- Go strings are Lean `String`s; Go's byte access `s[0]` is modelled by
  `byte0`, which is `none` exactly when the string is empty, i.e. when the
  Go access panics with an index-out-of-range runtime error.  All byte
  comparisons in the source compare against the ASCII byte `'-'`, for which
  "first byte" and "first character" agree under UTF-8.
- A Go function that can panic is modelled with an `Option` result; `none`
  is the panic outcome.
- Go's singleton `map[string]string{k: v}` literals stored in `Parser.args`
  are modelled as singleton association lists (`ArgEntry`); `firstPair`
  mirrors the Go helper that extracts the first (here: only) binding.
- Machine integers: the scan indexes (`i`, `im1`, `ip1`) stay far below any
  overflow bound, so they are plain `Nat`s; the Go test `im1 <= 0` is the
  Lean test `i ≤ 1` and `im1 > 0` is `1 < i`.  `strconv.Atoi` produces a
  64-bit `int`, modelled as a mathematical `Int` with the explicit
  `[-2^63, 2^63 - 1]` range check that `Atoi` performs.
-/

namespace GoArgs

/-- The Go constant `FlagPrefix = '-'` from parser.go: the leading character
that marks a token as flag-like.  (Renamed here; the source calls it
FlagPrefix.) -/
def flagMarker : Char := '-'

/-- Go `s[0]` as an option: `some` of the first character, `none` when `s`
is empty and the Go byte access panics. -/
def byte0 (s : String) : Option Char := s.data.head?

/-- One element of `Parser.args`: the Go code stores the singleton map
`map[string]string{arg: value}`, modelled as an association list that the
parser only ever builds with exactly one binding. -/
abbrev ArgEntry := List (String × String)

/-- Go `Parser` struct from parser.go. -/
structure Parser where
  rawArgs : List String
  positional : List String
  options : List String
  args : List ArgEntry
deriving Repr, DecidableEq

/-- `firstPair` from parser.go: returns the first key-value binding of the
map, or two empty strings for the (never constructed) empty map. -/
def firstPair (m : ArgEntry) : String × String :=
  match m with
  | [] => ("", "")
  | (k, v) :: _ => (k, v)

/-- The loop body of `Parser.Parse` from parser.go, lines 124-145.
`i` is the Go loop index, `prev` is `rawArgs[i-1]` (meaningless at `i = 0`,
where the code never reads it).  The list argument is the suffix
`rawArgs[i:]`; the source's random accesses `rawArgs[i]`, `rawArgs[ip1]`
are the head and second element of that suffix.  The Go conditions on the
signed `im1 = i - 1` become: `im1 <= 0` is `i ≤ 1`, `im1 > 0` is `1 < i`.
`none` models a Go panic: the source reads byte 0 of `rawArgs[im1]` and of
`rawArgs[ip1]` without checking for the empty string. -/
def scanGo : List String → Nat → String → List String → List String → List ArgEntry →
    Option (List String × List String × List ArgEntry)
  | [], _, _, pos, opts, args => some (pos, opts, args)
  | [arg], i, prev, pos, opts, args =>
    -- last token: `ip1 < len(p.rawArgs)` is false
    if arg = "" then some (pos, opts, args)
    else if byte0 arg ≠ some flagMarker then
      if i ≤ 1 then some (pos ++ [arg], opts, args)
      else
        match byte0 prev with
        | none => none
        | some pc =>
          if pc ≠ flagMarker then some (pos ++ [arg], opts, args)
          else some (pos, opts ++ [arg], args)
    else some (pos, opts ++ [arg], args)
  | arg :: next :: rest2, i, prev, pos, opts, args =>
    if arg = "" then scanGo (next :: rest2) (i + 1) arg pos opts args
    else if byte0 arg ≠ some flagMarker then
      if i ≤ 1 then scanGo (next :: rest2) (i + 1) arg (pos ++ [arg]) opts args
      else
        match byte0 prev with
        | none => none
        | some pc =>
          if pc ≠ flagMarker then scanGo (next :: rest2) (i + 1) arg (pos ++ [arg]) opts args
          else scanGo (next :: rest2) (i + 1) arg pos (opts ++ [arg]) args
    else
      match byte0 next with
      | none => none
      | some nc =>
        if nc ≠ flagMarker then scanGo rest2 (i + 2) next pos opts (args ++ [[(arg, next)]])
        else scanGo (next :: rest2) (i + 1) arg pos (opts ++ [arg]) args

/-- `NewParser` from parser.go: Go's variadic `args ...[]string` is used by
callers with zero or one slice, modelled as an `Option`. -/
def NewParser (initial : Option (List String)) : Parser :=
  { rawArgs := match initial with | some a => a | none => []
    positional := []
    options := []
    args := [] }

/-- `Parser.Parse` from parser.go: picks the raw-argument slice
(first-supplied-wins between construction and this call), then runs the
scan loop starting from the parser's current collections (the source
appends; it never clears).  `none` models a panic inside the loop;
otherwise Go returns the updated parser and a `nil` error. -/
def Parse (p : Parser) (passed : Option (List String)) : Option Parser :=
  let raw := match passed with
    | some a => if p.rawArgs = [] then a else p.rawArgs
    | none => p.rawArgs
  match scanGo raw 0 "" p.positional p.options p.args with
  | none => none
  | some (pos, opts, args) => some ⟨raw, pos, opts, args⟩

/-- The canonical use of the package: construct with the token sequence,
then parse. -/
def parseArgs (ts : List String) : Option Parser :=
  Parse (NewParser (some ts)) none

/-- `Parser.Positional` from parser.go. -/
def Positional (p : Parser) : List String := p.positional

/-- `Parser.At` from parser.go.  Go's `int` index is an `Int`; the result is
`none` when the slice access `p.positional[index]` panics, which happens
exactly for negative `index` (then `index < len(p.positional)` is true and
the access is out of range). -/
def At (p : Parser) (index : Int) : Option (String × Bool) :=
  if h : index < (p.positional.length : Int) then
    if h0 : 0 ≤ index then
      some (p.positional.get ⟨index.toNat, by omega⟩, true)
    else none
  else some ("", false)

/-- `Parser.Options` from parser.go. -/
def Options (p : Parser) : List String := p.options

/-- `Parser.HasOption` from parser.go: `names := append(alts, option)`, then
a scan over the options with an inner scan over the names. -/
def HasOption (p : Parser) (opt : String) (alts : List String) : Bool :=
  p.options.any (fun o => (alts ++ [opt]).any (fun n => o == n))

/-- `Parser.Args` from parser.go. -/
def Args (p : Parser) : List ArgEntry := p.args

/-- `Parser.Get` from parser.go: outer loop over the names
(`append(alts, name)`), inner loop over the stored pairs, appending each
value whose key equals the current name. -/
def Get (p : Parser) (name : String) (alts : List String) : List String :=
  (alts ++ [name]).foldl (fun acc n =>
    p.args.foldl (fun acc2 e =>
      if (firstPair e).1 == n then acc2 ++ [(firstPair e).2] else acc2) acc) []

/-- The test made by the accessors' inner name loops: the key of the stored
pair equals one of the names (`append(alts, name)`). -/
def keyMatches (names : List String) (e : ArgEntry) : Bool :=
  names.any (fun n => (firstPair e).1 == n)

/-- The inner early-return loop of `Parser.GetString`, run over the stored
pairs from the last to the first (the source iterates `i` downward; here
the list is reversed): return the value of the first entry whose key equals
one of the names, or `""` after the loop. -/
def getStrAux (names : List String) : List ArgEntry → String
  | [] => ""
  | e :: rest =>
    if keyMatches names e then (firstPair e).2
    else getStrAux names rest

/-- `Parser.GetString` from parser.go. -/
def GetString (p : Parser) (name : String) (alts : List String) : String :=
  getStrAux (alts ++ [name]) p.args.reverse

/-- `Parser.LookupString` from parser.go: `v := GetString(...); return v, v != ""`. -/
def LookupString (p : Parser) (name : String) (alts : List String) : String × Bool :=
  (GetString p name alts, GetString p name alts != "")

/-- Value of a non-empty all-digit string, `none` if empty or any character
is not an ASCII digit (the digit-accumulation core of `strconv.Atoi`). -/
def digitsVal (cs : List Char) : Option Nat :=
  if cs.isEmpty then none
  else cs.foldl (fun acc c =>
    match acc with
    | none => none
    | some n => if '0' ≤ c ∧ c ≤ '9' then some (n * 10 + (c.toNat - '0'.toNat)) else none)
    (some 0)

/-- Go `strconv.Atoi` (base 10, 64-bit `int`): optional single leading `+`
or `-`, then one or more digits; errors (`none`) on the empty string, on
any non-digit character, and when the value falls outside
`[-2^63, 2^63 - 1]`. -/
def Atoi (s : String) : Option Int :=
  match s.data with
  | [] => none
  | c :: cs =>
    if c = '-' then
      match digitsVal cs with
      | none => none
      | some n =>
        if -(2 ^ 63) ≤ -(n : Int) ∧ -(n : Int) ≤ 2 ^ 63 - 1 then some (-(n : Int)) else none
    else
      match digitsVal (if c = '+' then cs else c :: cs) with
      | none => none
      | some n =>
        if -(2 ^ 63) ≤ (n : Int) ∧ (n : Int) ≤ 2 ^ 63 - 1 then some ((n : Int)) else none

/-- The inner early-return loop of `Parser.GetInt` over the reversed stored
pairs: on the first key match, `strconv.Atoi` the value — Go panics on an
`Atoi` error (`none` here) — otherwise keep scanning; `-1` after the loop. -/
def getIntAux (names : List String) : List ArgEntry → Option Int
  | [] => some (-1)
  | e :: rest =>
    if keyMatches names e then
      match Atoi (firstPair e).2 with
      | none => none
      | some z => some z
    else getIntAux names rest

/-- `Parser.GetInt` from parser.go; `none` models the panic on an invalid
integer value. -/
def GetInt (p : Parser) (name : String) (alts : List String) : Option Int :=
  getIntAux (alts ++ [name]) p.args.reverse

/-- `Parser.LookupInt` from parser.go: `v := GetInt(...); return v, v != -1`
(propagating GetInt's panic). -/
def LookupInt (p : Parser) (name : String) (alts : List String) : Option (Int × Bool) :=
  match GetInt p name alts with
  | none => none
  | some z => some (z, z != -1)

/-! ### Specification-side definitions

These follow the spec's words, for comparison with the code-derived
definitions above. -/

/-- Spec §3: a token is flag-like iff its first character equals the flag
marker (total: the empty token is not flag-like). -/
def flagLikeT (s : String) : Bool := byte0 s == some flagMarker

/-- Reference classifier following the spec's words (§4.1) with an explicit
"already consumed as a value" flag instead of the source's lookback at the
previous token: when the flag is set the token was consumed by the
preceding argument pair and is skipped; an unconsumed empty token is
skipped; an unconsumed non-flag-like token is positional; a flag-like token
followed by a non-flag-like token records an argument pair and marks the
value consumed; otherwise a flag-like token is an option. -/
def refGo : Bool → List String → List String → List String → List ArgEntry →
    List String × List String × List ArgEntry
  | _, [], pos, opts, args => (pos, opts, args)
  | true, _ :: rest, pos, opts, args => refGo false rest pos opts args
  | false, t :: rest, pos, opts, args =>
    if t = "" then refGo false rest pos opts args
    else if flagLikeT t = false then refGo false rest (pos ++ [t]) opts args
    else
      match rest with
      | next :: _ =>
        if flagLikeT next = false then refGo true rest pos opts (args ++ [[(t, next)]])
        else refGo false rest pos (opts ++ [t]) args
      | [] => (pos, opts ++ [t], args)

/-- The consumption-tracking reference classifier of the spec, run on a
whole token sequence. -/
def refClassify (ts : List String) : List String × List String × List ArgEntry :=
  refGo false ts [] [] []

/-- Spec-side single-value lookup: the value of the pair with the highest
index in the pair collection whose key is one of the names, if any. -/
def lastMatchVal (args : List ArgEntry) (names : List String) : Option String :=
  (args.reverse.find? (keyMatches names)).map (fun e => (firstPair e).2)

/-- Spec-side multi-value lookup: the values of all pairs whose key is one
of the names, ordered by the pairs' original positions. -/
def valuesInInputOrder (args : List ArgEntry) (names : List String) : List String :=
  (args.filter (keyMatches names)).map (fun e => (firstPair e).2)

/-- Multi-value lookup grouped by name: for each name in order, the values
of the pairs carrying exactly that key, in input order, concatenated. -/
def valuesGrouped (args : List ArgEntry) (names : List String) : List String :=
  (names.map (fun n =>
    (args.filter (fun e => (firstPair e).1 == n)).map (fun e => (firstPair e).2))).flatten

/-- Structural invariant of an argument-pair entry produced by the scan:
exactly one binding, flag-like key, non-empty non-flag-like value. -/
def entryInv (e : ArgEntry) : Prop :=
  e.length = 1 ∧ byte0 (firstPair e).1 = some flagMarker ∧
    (firstPair e).2 ≠ "" ∧ byte0 (firstPair e).2 ≠ some flagMarker

/-- Loop invariant relating the scan position to the token before it: the
source's lookback-based positional rule agrees with consumption tracking as
long as either the scan is at index 0 or 1, or the previous token is not
flag-like, or the current token (if any) is itself flag-like. -/
def lookbackSafe (i : Nat) (prev : String) (rest : List String) : Prop :=
  i ≤ 1 ∨ byte0 prev ≠ some flagMarker ∨
    (∀ t, rest.head? = some t → byte0 t = some flagMarker)

/-! ### Helper lemmas -/

theorem byte0_some_ne_empty {s : String} {c : Char} (h : byte0 s = some c) : s ≠ "" := by
  intro he
  subst he
  simp [byte0] at h

/-- Core accounting of the scan loop: on completion, every non-empty token
of the remaining suffix lands in exactly one of the three collections, a
pair absorbing two tokens. -/
theorem scanGo_count (l : List String) (i : Nat) (prev : String)
    (pos opts : List String) (args : List ArgEntry) :
    ∀ P O A, scanGo l i prev pos opts args = some (P, O, A) →
      P.length + O.length + 2 * A.length =
        pos.length + opts.length + 2 * args.length + l.countP (fun t => t != "") := by
  induction l, i, prev, pos, opts, args using scanGo.induct with
  | case1 i prev pos opts args =>
    intro P O A h
    simp only [scanGo, Option.some.injEq, Prod.mk.injEq] at h
    obtain ⟨rfl, rfl, rfl⟩ := h
    simp
  | case2 i prev pos opts args =>
    intro P O A h
    simp only [scanGo, if_pos rfl, Option.some.injEq, Prod.mk.injEq] at h
    obtain ⟨rfl, rfl, rfl⟩ := h
    simp
  | case3 arg i prev pos opts args h1 h2 h3 =>
    intro P O A h
    simp only [scanGo, if_neg h1, if_pos h2, if_pos h3, Option.some.injEq,
      Prod.mk.injEq] at h
    obtain ⟨rfl, rfl, rfl⟩ := h
    simp [List.countP_cons, h1]
    omega
  | case4 arg i prev pos opts args h1 h2 h3 h4 =>
    intro P O A h
    simp only [scanGo, if_neg h1, if_pos h2, if_neg h3, h4] at h
    exact Option.noConfusion h
  | case5 arg i prev pos opts args h1 h2 h3 pc h4 h5 =>
    intro P O A h
    simp only [scanGo, if_neg h1, if_pos h2, if_neg h3, h4, if_pos h5,
      Option.some.injEq, Prod.mk.injEq] at h
    obtain ⟨rfl, rfl, rfl⟩ := h
    simp [List.countP_cons, h1]
    omega
  | case6 arg i prev pos opts args h1 h2 h3 pc h4 h5 =>
    intro P O A h
    simp only [scanGo, if_neg h1, if_pos h2, if_neg h3, h4, if_neg h5,
      Option.some.injEq, Prod.mk.injEq] at h
    obtain ⟨rfl, rfl, rfl⟩ := h
    simp [List.countP_cons, h1]
    omega
  | case7 arg i prev pos opts args h1 h2 =>
    intro P O A h
    simp only [scanGo, if_neg h1, if_neg h2, Option.some.injEq, Prod.mk.injEq] at h
    obtain ⟨rfl, rfl, rfl⟩ := h
    simp [List.countP_cons, h1]
    omega
  | case8 next rest2 i prev pos opts args ih =>
    intro P O A h
    simp only [scanGo, if_pos rfl] at h
    have := ih P O A h
    simp only [List.countP_cons] at *
    simp at this ⊢
    omega
  | case9 arg next rest2 i prev pos opts args h1 h2 h3 ih =>
    intro P O A h
    simp only [scanGo, if_neg h1, if_pos h2, if_pos h3] at h
    have := ih P O A h
    simp [List.countP_cons, h1, List.length_append] at this ⊢
    omega
  | case10 arg next rest2 i prev pos opts args h1 h2 h3 h4 =>
    intro P O A h
    simp only [scanGo, if_neg h1, if_pos h2, if_neg h3, h4] at h
    exact Option.noConfusion h
  | case11 arg next rest2 i prev pos opts args h1 h2 h3 pc h4 h5 ih =>
    intro P O A h
    simp only [scanGo, if_neg h1, if_pos h2, if_neg h3, h4, if_pos h5] at h
    have := ih P O A h
    simp [List.countP_cons, h1, List.length_append] at this ⊢
    omega
  | case12 arg next rest2 i prev pos opts args h1 h2 h3 pc h4 h5 ih =>
    intro P O A h
    simp only [scanGo, if_neg h1, if_pos h2, if_neg h3, h4, if_neg h5] at h
    have := ih P O A h
    simp [List.countP_cons, h1, List.length_append] at this ⊢
    omega
  | case13 arg next rest2 i prev pos opts args h1 h2 h3 =>
    intro P O A h
    simp only [scanGo, if_neg h1, if_neg h2, h3] at h
    exact Option.noConfusion h
  | case14 arg next rest2 i prev pos opts args h1 h2 nc h3 h4 ih =>
    intro P O A h
    simp only [scanGo, if_neg h1, if_neg h2, h3, if_pos h4] at h
    have := ih P O A h
    have hne : next ≠ "" := byte0_some_ne_empty h3
    simp [List.countP_cons, h1, hne, List.length_append] at this ⊢
    omega
  | case15 arg next rest2 i prev pos opts args h1 h2 nc h3 h4 ih =>
    intro P O A h
    simp only [scanGo, if_neg h1, if_neg h2, h3, if_neg h4] at h
    have := ih P O A h
    simp [List.countP_cons, h1, List.length_append] at this ⊢
    omega

/-! ### Claim C1: token accounting -/

/-- C1: for every input token sequence on which Parse completes, the number
of positional entries plus the number of option entries plus twice the
number of argument pairs equals the number of non-empty input tokens: every
non-empty token is assigned to exactly one of positional, option, or one
side of an argument pair. -/
theorem parse_token_accounting (ts : List String) (p : Parser)
    (h : parseArgs ts = some p) :
    p.positional.length + p.options.length + 2 * p.args.length =
      ts.countP (fun t => t != "") := by
  simp only [parseArgs, Parse, NewParser] at h
  rcases hs : scanGo ts 0 "" [] [] [] with _ | ⟨P, O, A⟩
  · rw [hs] at h
    exact Option.noConfusion h
  · rw [hs] at h
    simp only [Option.some.injEq] at h
    subst h
    simpa using scanGo_count ts 0 "" [] [] [] P O A hs

/-- Witness for C1 at a concrete input covering all three categories. -/
theorem parse_token_accounting_witness :
    parseArgs ["pos0", "-a", "-g", "v"] =
      some (Parser.mk ["pos0", "-a", "-g", "v"] ["pos0"] ["-a"] [[("-g", "v")]]) ∧
    (Parser.mk ["pos0", "-a", "-g", "v"] ["pos0"] ["-a"] [[("-g", "v")]]).positional.length +
        (Parser.mk ["pos0", "-a", "-g", "v"] ["pos0"] ["-a"] [[("-g", "v")]]).options.length +
        2 * (Parser.mk ["pos0", "-a", "-g", "v"] ["pos0"] ["-a"] [[("-g", "v")]]).args.length =
      ["pos0", "-a", "-g", "v"].countP (fun t => t != "") :=
  ⟨rfl, parse_token_accounting _ _ rfl⟩

/-! ### Claim C2: the scan is not panic-free -/

/-- C2 is violated by the code: the scan reads byte 0 of a neighbouring
token without an emptiness check (`p.rawArgs[im1][0]` in the positional
rule, `p.rawArgs[ip1][0]` in the argument-pair rule), so an empty token
adjacent to non-empty tokens makes Parse panic (modelled `none`) instead of
being silently dropped. -/
theorem parse_panics_on_empty_token_neighbors :
    parseArgs ["a", "", "x"] = none ∧ parseArgs ["-a", ""] = none :=
  ⟨rfl, rfl⟩

/-! ### The structural invariant of stored argument pairs -/

/-- The scan only ever appends argument-pair entries that are singletons
with a flag-like key and a non-empty, non-flag-like value. -/
theorem scanGo_entryInv (l : List String) (i : Nat) (prev : String)
    (pos opts : List String) (args : List ArgEntry) :
    ∀ P O A, scanGo l i prev pos opts args = some (P, O, A) →
      (∀ e ∈ args, entryInv e) → ∀ e ∈ A, entryInv e := by
  induction l, i, prev, pos, opts, args using scanGo.induct with
  | case1 i prev pos opts args =>
    intro P O A h hInv
    simp only [scanGo, Option.some.injEq, Prod.mk.injEq] at h
    obtain ⟨rfl, rfl, rfl⟩ := h
    exact hInv
  | case2 i prev pos opts args =>
    intro P O A h hInv
    simp only [scanGo, if_pos rfl, Option.some.injEq, Prod.mk.injEq] at h
    obtain ⟨rfl, rfl, rfl⟩ := h
    exact hInv
  | case3 arg i prev pos opts args h1 h2 h3 =>
    intro P O A h hInv
    simp only [scanGo, if_neg h1, if_pos h2, if_pos h3, Option.some.injEq,
      Prod.mk.injEq] at h
    obtain ⟨rfl, rfl, rfl⟩ := h
    exact hInv
  | case4 arg i prev pos opts args h1 h2 h3 h4 =>
    intro P O A h hInv
    simp only [scanGo, if_neg h1, if_pos h2, if_neg h3, h4] at h
    exact Option.noConfusion h
  | case5 arg i prev pos opts args h1 h2 h3 pc h4 h5 =>
    intro P O A h hInv
    simp only [scanGo, if_neg h1, if_pos h2, if_neg h3, h4, if_pos h5,
      Option.some.injEq, Prod.mk.injEq] at h
    obtain ⟨rfl, rfl, rfl⟩ := h
    exact hInv
  | case6 arg i prev pos opts args h1 h2 h3 pc h4 h5 =>
    intro P O A h hInv
    simp only [scanGo, if_neg h1, if_pos h2, if_neg h3, h4, if_neg h5,
      Option.some.injEq, Prod.mk.injEq] at h
    obtain ⟨rfl, rfl, rfl⟩ := h
    exact hInv
  | case7 arg i prev pos opts args h1 h2 =>
    intro P O A h hInv
    simp only [scanGo, if_neg h1, if_neg h2, Option.some.injEq, Prod.mk.injEq] at h
    obtain ⟨rfl, rfl, rfl⟩ := h
    exact hInv
  | case8 next rest2 i prev pos opts args ih =>
    intro P O A h hInv
    simp only [scanGo, if_pos rfl] at h
    exact ih P O A h hInv
  | case9 arg next rest2 i prev pos opts args h1 h2 h3 ih =>
    intro P O A h hInv
    simp only [scanGo, if_neg h1, if_pos h2, if_pos h3] at h
    exact ih P O A h hInv
  | case10 arg next rest2 i prev pos opts args h1 h2 h3 h4 =>
    intro P O A h hInv
    simp only [scanGo, if_neg h1, if_pos h2, if_neg h3, h4] at h
    exact Option.noConfusion h
  | case11 arg next rest2 i prev pos opts args h1 h2 h3 pc h4 h5 ih =>
    intro P O A h hInv
    simp only [scanGo, if_neg h1, if_pos h2, if_neg h3, h4, if_pos h5] at h
    exact ih P O A h hInv
  | case12 arg next rest2 i prev pos opts args h1 h2 h3 pc h4 h5 ih =>
    intro P O A h hInv
    simp only [scanGo, if_neg h1, if_pos h2, if_neg h3, h4, if_neg h5] at h
    exact ih P O A h hInv
  | case13 arg next rest2 i prev pos opts args h1 h2 h3 =>
    intro P O A h hInv
    simp only [scanGo, if_neg h1, if_neg h2, h3] at h
    exact Option.noConfusion h
  | case14 arg next rest2 i prev pos opts args h1 h2 nc h3 h4 ih =>
    intro P O A h hInv
    simp only [scanGo, if_neg h1, if_neg h2, h3, if_pos h4] at h
    refine ih P O A h ?_
    intro e he
    rcases List.mem_append.1 he with he | he
    · exact hInv e he
    · rcases List.mem_singleton.1 he with rfl
      refine ⟨rfl, not_not.1 h2, byte0_some_ne_empty h3, ?_⟩
      simp only [firstPair, h3, ne_eq, Option.some.injEq]
      exact h4
  | case15 arg next rest2 i prev pos opts args h1 h2 nc h3 h4 ih =>
    intro P O A h hInv
    simp only [scanGo, if_neg h1, if_neg h2, h3, if_neg h4] at h
    exact ih P O A h hInv

/-- Every argument-pair entry of a parser produced by a completed parse
satisfies the structural invariant. -/
theorem parse_entryInv (ts : List String) (p : Parser)
    (h : parseArgs ts = some p) : ∀ e ∈ p.args, entryInv e := by
  simp only [parseArgs, Parse, NewParser] at h
  rcases hs : scanGo ts 0 "" [] [] [] with _ | ⟨P, O, A⟩
  · rw [hs] at h
    exact Option.noConfusion h
  · rw [hs] at h
    simp only [Option.some.injEq] at h
    subst h
    exact scanGo_entryInv ts 0 "" [] [] [] P O A hs (by intro e he; cases he)

/-! ### Claim C3: single-value fetch, last pair wins -/

/-- The GetString inner loop returns the value of the first matching entry
of the (already reversed) list, `""` if none matches. -/
theorem getStrAux_find (names : List String) (l : List ArgEntry) :
    getStrAux names l =
      ((l.find? (keyMatches names)).map (fun e => (firstPair e).2)).getD "" := by
  induction l with
  | nil => rfl
  | cons e rest ih =>
    cases hm : keyMatches names e
    · simp [getStrAux, List.find?_cons, hm, ih]
    · simp [getStrAux, List.find?_cons, hm]

/-- C3: on a parse-produced state, GetString returns the value of the pair
with the highest index whose key is any of the names, and `""` — with
LookupString reporting `false` — when no pair's key is in the name set; the
found flag is reliable because stored values are never empty. -/
theorem getString_right_to_left (ts : List String) (p : Parser)
    (h : parseArgs ts = some p) (name : String) (alts : List String) :
    (∀ v, lastMatchVal p.args (alts ++ [name]) = some v →
        GetString p name alts = v ∧ LookupString p name alts = (v, true)) ∧
    (lastMatchVal p.args (alts ++ [name]) = none →
        GetString p name alts = "" ∧ LookupString p name alts = ("", false)) := by
  have hGS : GetString p name alts =
      ((p.args.reverse.find? (keyMatches (alts ++ [name]))).map
        (fun e => (firstPair e).2)).getD "" := getStrAux_find _ _
  constructor
  · intro v hv
    unfold lastMatchVal at hv
    rcases hf : p.args.reverse.find? (keyMatches (alts ++ [name])) with _ | e
    · rw [hf] at hv
      exact Option.noConfusion hv
    · rw [hf] at hv
      simp only [Option.map_some', Option.some.injEq] at hv
      have hGv : GetString p name alts = v := by
        rw [hGS, hf]
        simpa using hv
      have hmem : e ∈ p.args := List.mem_reverse.1 (List.mem_of_find?_eq_some hf)
      have hinv := parse_entryInv ts p h e hmem
      have hvne : v ≠ "" := by
        rcases hinv with ⟨_, _, hne, _⟩
        rw [← hv]
        exact hne
      refine ⟨hGv, ?_⟩
      unfold LookupString
      rw [hGv]
      simp [hvne]
  · intro hv
    unfold lastMatchVal at hv
    rcases hf : p.args.reverse.find? (keyMatches (alts ++ [name])) with _ | e
    · have hG : GetString p name alts = "" := by
        rw [hGS, hf]
        rfl
      refine ⟨hG, ?_⟩
      unfold LookupString
      rw [hG]
      simp
    · rw [hf] at hv
      simp at hv

/-- Witness for C3: with `--a` bound to `1` then `2`, the fetch returns the
later value `2`. -/
theorem getString_right_to_left_witness :
    parseArgs ["--a", "1", "--a", "2"] =
      some (Parser.mk ["--a", "1", "--a", "2"] [] [] [[("--a", "1")], [("--a", "2")]]) ∧
    GetString (Parser.mk ["--a", "1", "--a", "2"] [] [] [[("--a", "1")], [("--a", "2")]])
        "--a" [] = "2" ∧
    LookupString (Parser.mk ["--a", "1", "--a", "2"] [] [] [[("--a", "1")], [("--a", "2")]])
        "--a" [] = ("2", true) :=
  ⟨rfl,
   ((getString_right_to_left ["--a", "1", "--a", "2"] _ rfl "--a" []).1 "2" rfl).1,
   ((getString_right_to_left ["--a", "1", "--a", "2"] _ rfl "--a" []).1 "2" rfl).2⟩

/-! ### Claim C8: integer-coerced fetch -/

/-- A string that does not begin with the flag marker cannot parse to a
negative integer. -/
theorem atoi_nonneg (v : String) (hhd : byte0 v ≠ some flagMarker)
    (z : Int) (hz : Atoi v = some z) : 0 ≤ z := by
  unfold Atoi at hz
  rcases hd : v.data with _ | ⟨c, cs⟩ <;> rw [hd] at hz <;> dsimp only at hz
  · exact Option.noConfusion hz
  · have hc : ¬c = '-' := fun hcc => hhd (by simp [byte0, hd, hcc, flagMarker])
    rw [if_neg hc] at hz
    rcases hdv : digitsVal (if c = '+' then cs else c :: cs) with _ | n <;>
        rw [hdv] at hz <;> dsimp only at hz
    · exact Option.noConfusion hz
    · split at hz
      · have := Option.some.inj hz
        omega
      · exact Option.noConfusion hz

/-- The GetInt inner loop returns `Atoi` of the value of the first matching
entry of the (already reversed) list — `none` (panic) when `Atoi` fails —
and `-1` if no entry matches. -/
theorem getIntAux_find (names : List String) (l : List ArgEntry) :
    getIntAux names l =
      match l.find? (keyMatches names) with
      | none => some (-1)
      | some e => match Atoi (firstPair e).2 with | none => none | some z => some z := by
  induction l with
  | nil => rfl
  | cons e rest ih =>
    cases hm : keyMatches names e
    · simp [getIntAux, List.find?_cons, hm, ih]
    · simp [getIntAux, List.find?_cons, hm]

/-- C8: on a parse-produced state, the integer fetch panics (modelled
`none`) exactly when the right-to-left matching pair's value is not valid
base-10 integer text; a valid matching value is returned as that integer
with a reliable found flag, and the no-match case yields the `-1` not-found
indicator without faulting. -/
theorem getInt_right_to_left (ts : List String) (p : Parser)
    (h : parseArgs ts = some p) (name : String) (alts : List String) :
    (lastMatchVal p.args (alts ++ [name]) = none →
        GetInt p name alts = some (-1) ∧ LookupInt p name alts = some (-1, false)) ∧
    (∀ v, lastMatchVal p.args (alts ++ [name]) = some v →
        (Atoi v = none → GetInt p name alts = none ∧ LookupInt p name alts = none) ∧
        (∀ z, Atoi v = some z →
            GetInt p name alts = some z ∧ LookupInt p name alts = some (z, true))) := by
  have hGI : GetInt p name alts =
      match p.args.reverse.find? (keyMatches (alts ++ [name])) with
      | none => some (-1)
      | some e => match Atoi (firstPair e).2 with | none => none | some z => some z :=
    getIntAux_find _ _
  constructor
  · intro hv
    unfold lastMatchVal at hv
    rcases hf : p.args.reverse.find? (keyMatches (alts ++ [name])) with _ | e
    · rw [hf] at hGI
      refine ⟨hGI, ?_⟩
      unfold LookupInt
      rw [hGI]
      simp
    · rw [hf] at hv
      simp at hv
  · intro v hv
    unfold lastMatchVal at hv
    rcases hf : p.args.reverse.find? (keyMatches (alts ++ [name])) with _ | e
    · rw [hf] at hv
      exact Option.noConfusion hv
    · rw [hf] at hv
      simp only [Option.map_some', Option.some.injEq] at hv
      rw [hf] at hGI
      constructor
      · intro hA
        simp only [hv, hA] at hGI
        refine ⟨hGI, ?_⟩
        unfold LookupInt
        rw [hGI]
      · intro z hA
        simp only [hv, hA] at hGI
        have hmem : e ∈ p.args := List.mem_reverse.1 (List.mem_of_find?_eq_some hf)
        obtain ⟨_, _, _, hval⟩ := parse_entryInv ts p h e hmem
        have hz0 : 0 ≤ z := atoi_nonneg v (hv ▸ hval) z hA
        have hzne : z ≠ -1 := by omega
        refine ⟨hGI, ?_⟩
        unfold LookupInt
        rw [hGI]
        simp [hzne]

/-- Witness for C8: `--a 7` fetches the integer 7 with a true found flag. -/
theorem getInt_right_to_left_witness :
    parseArgs ["--a", "7"] = some (Parser.mk ["--a", "7"] [] [] [[("--a", "7")]]) ∧
    GetInt (Parser.mk ["--a", "7"] [] [] [[("--a", "7")]]) "--a" [] = some 7 ∧
    LookupInt (Parser.mk ["--a", "7"] [] [] [[("--a", "7")]]) "--a" [] = some (7, true) :=
  ⟨rfl,
   (((getInt_right_to_left ["--a", "7"] _ rfl "--a" []).2 "7" rfl).2 7 rfl).1,
   (((getInt_right_to_left ["--a", "7"] _ rfl "--a" []).2 "7" rfl).2 7 rfl).2⟩

/-! ### Claim C10: shape of the stored pairs and sentinel safety -/

/-- C10: every entry of a parse-produced argument-pair collection is a
single-binding map whose key begins with the flag marker and whose value is
non-empty and does not begin with the flag marker; consequently a stored
value is never the `""` sentinel of GetString/LookupString and never parses
to the `-1` sentinel of GetInt/LookupInt, so the exists flags derived from
those sentinels are accurate on parser-produced states. -/
theorem parse_args_entries_wellformed (ts : List String) (p : Parser)
    (h : parseArgs ts = some p) :
    ∀ e ∈ p.args, e.length = 1 ∧ byte0 (firstPair e).1 = some flagMarker ∧
      (firstPair e).2 ≠ "" ∧ byte0 (firstPair e).2 ≠ some flagMarker ∧
      ∀ z, Atoi (firstPair e).2 = some z → 0 ≤ z := by
  intro e he
  obtain ⟨h1, h2, h3, h4⟩ := parse_entryInv ts p h e he
  exact ⟨h1, h2, h3, h4, fun z hz => atoi_nonneg _ h4 z hz⟩

/-- Witness for C10 on the parse of `--a 1`. -/
theorem parse_args_entries_wellformed_witness :
    parseArgs ["--a", "1"] = some (Parser.mk ["--a", "1"] [] [] [[("--a", "1")]]) ∧
    ([("--a", "1")] : ArgEntry).length = 1 ∧
    byte0 "--a" = some flagMarker ∧
    "1" ≠ "" ∧
    byte0 "1" ≠ some flagMarker ∧
    (0 : Int) ≤ 1 :=
  have hT := parse_args_entries_wellformed ["--a", "1"] _ rfl [("--a", "1")] (by simp)
  ⟨rfl, hT.1, hT.2.1, hT.2.2.1, hT.2.2.2.1, hT.2.2.2.2 1 rfl⟩

/-! ### Claim C7: positional access by index -/

/-- C7 as stated is violated by the code: a negative index passes the Go
test `index < len(p.positional)` and then panics on the slice access,
instead of returning the not-found pair. -/
theorem at_negative_index_panics :
    parseArgs [] = some (Parser.mk [] [] [] []) ∧
    At (Parser.mk [] [] [] []) (-1) = none ∧
    At (Parser.mk [] [] [] []) (-1) ≠ some ("", false) := by
  refine ⟨rfl, ?_, ?_⟩ <;> simp [At]

/-- C7 amended: At returns the entry and `true` for `0 ≤ index < length`,
the not-found pair `("", false)` for `index ≥ length`, and panics (modelled
`none`) for every negative index. -/
theorem at_characterization (p : Parser) (index : Int) :
    At p index =
      if index < 0 then none
      else if h2 : index.toNat < p.positional.length then
        some (p.positional.get ⟨index.toNat, h2⟩, true)
      else some ("", false) := by
  unfold At
  split
  · split
    · rw [if_neg (by omega), dif_pos (by omega)]
    · rw [if_pos (by omega)]
  · rw [if_neg (by omega), dif_neg (by omega)]

/-! ### Claim C6: multi-value fetch -/

/-- The inner loop of Get over the stored pairs appends, in input order,
the values whose key equals the one name under consideration. -/
theorem get_inner_foldl (n : String) (l : List ArgEntry) (acc : List String) :
    l.foldl (fun acc2 e =>
        if (firstPair e).1 == n then acc2 ++ [(firstPair e).2] else acc2) acc =
      acc ++ (l.filter (fun e => (firstPair e).1 == n)).map (fun e => (firstPair e).2) := by
  induction l generalizing acc with
  | nil => simp
  | cons e rest ih =>
    simp only [List.foldl_cons, List.filter_cons]
    by_cases hm : (firstPair e).1 = n
    · rw [if_pos (show ((firstPair e).1 == n) = true by simp [hm]),
          if_pos (show ((firstPair e).1 == n) = true by simp [hm]), ih]
      simp [List.append_assoc]
    · rw [if_neg (show ¬((firstPair e).1 == n) = true by simp [hm]),
          if_neg (show ¬((firstPair e).1 == n) = true by simp [hm]), ih]

/-- The outer loop of Get over the names concatenates the per-name value
lists in name order. -/
theorem get_outer_foldl (args : List ArgEntry) (names : List String) (acc : List String) :
    names.foldl (fun acc n => args.foldl (fun acc2 e =>
        if (firstPair e).1 == n then acc2 ++ [(firstPair e).2] else acc2) acc) acc =
      acc ++ (names.map (fun n =>
        (args.filter (fun e => (firstPair e).1 == n)).map (fun e => (firstPair e).2))).flatten := by
  induction names generalizing acc with
  | nil => simp
  | cons n rest ih =>
    simp only [List.foldl_cons]
    rw [ih, get_inner_foldl]
    simp [List.map_cons, List.flatten_cons, List.append_assoc]

/-- C6 is violated by the code: with aliases, Get groups values by which
name matched (aliases first, primary name last) instead of by the pairs'
original input positions — here the input order is `b` then `a`, but Get
returns `a` before `b`. -/
theorem get_groups_by_name_not_input_order :
    parseArgs ["--name", "b", "-n", "a"] =
      some (Parser.mk ["--name", "b", "-n", "a"] [] [] [[("--name", "b")], [("-n", "a")]]) ∧
    Get (Parser.mk ["--name", "b", "-n", "a"] [] [] [[("--name", "b")], [("-n", "a")]])
        "--name" ["-n"] = ["a", "b"] ∧
    valuesInInputOrder [[("--name", "b")], [("-n", "a")]] (["-n"] ++ ["--name"]) = ["b", "a"] ∧
    (["a", "b"] : List String) ≠ ["b", "a"] :=
  ⟨rfl, rfl, rfl, by decide⟩

/-- C6 amended: Get returns, for each name in the lookup set (aliases in
the order given, primary name last), the values of the pairs whose key
equals that name in input order, concatenated name by name; in particular
for a lookup without aliases this is the original input order. -/
theorem get_grouped_by_name (p : Parser) (name : String) (alts : List String) :
    Get p name alts = valuesGrouped p.args (alts ++ [name]) := by
  unfold Get valuesGrouped
  rw [get_outer_foldl]
  simp

/-! ### Claim C9: first-supplied-wins between construction and Parse -/

/-- C9: a sequence passed to Parse is ignored when construction already
supplied a non-empty sequence (the construction-time sequence is parsed),
and is the one parsed when construction supplied nothing or an empty
sequence. -/
theorem parse_first_supplied_wins (cs xs : List String) (hcs : cs ≠ []) :
    Parse (NewParser (some cs)) (some xs) = Parse (NewParser (some cs)) none ∧
    Parse (NewParser (some [])) (some xs) = Parse (NewParser (some xs)) none ∧
    Parse (NewParser none) (some xs) = Parse (NewParser (some xs)) none := by
  refine ⟨?_, rfl, rfl⟩
  unfold Parse NewParser
  simp [hcs]

/-- Witness for C9 with construction-time `["a"]` and invocation `["b"]`. -/
theorem parse_first_supplied_wins_witness :
    (["a"] : List String) ≠ [] ∧
    Parse (NewParser (some ["a"])) (some ["b"]) = Parse (NewParser (some ["a"])) none ∧
    Parse (NewParser (some [])) (some ["b"]) = Parse (NewParser (some ["b"])) none ∧
    Parse (NewParser none) (some ["b"]) = Parse (NewParser (some ["b"])) none :=
  ⟨by decide, (parse_first_supplied_wins ["a"] ["b"] (by decide)).1,
   (parse_first_supplied_wins ["a"] ["b"] (by decide)).2.1,
   (parse_first_supplied_wins ["a"] ["b"] (by decide)).2.2⟩

/-! ### Claim C5: re-parsing -/

/-- Running the scan from arbitrary starting collections appends exactly
what a run from empty collections produces. -/
theorem scanGo_shift (l : List String) (i : Nat) (prev : String)
    (pos opts : List String) (args : List ArgEntry) :
    ∀ pos' opts' args', scanGo l i prev pos' opts' args' =
      (scanGo l i prev [] [] []).map
        (fun r => (pos' ++ r.1, opts' ++ r.2.1, args' ++ r.2.2)) := by
  induction l, i, prev, pos, opts, args using scanGo.induct with
  | case1 i prev pos opts args =>
    intro pos' opts' args'
    simp [scanGo]
  | case2 i prev pos opts args =>
    intro pos' opts' args'
    simp [scanGo]
  | case3 arg i prev pos opts args h1 h2 h3 =>
    intro pos' opts' args'
    simp [scanGo, h1, h2, h3]
  | case4 arg i prev pos opts args h1 h2 h3 h4 =>
    intro pos' opts' args'
    simp [scanGo, h1, h2, h3, h4]
  | case5 arg i prev pos opts args h1 h2 h3 pc h4 h5 =>
    intro pos' opts' args'
    simp [scanGo, h1, h2, h3, h4, h5]
  | case6 arg i prev pos opts args h1 h2 h3 pc h4 h5 =>
    intro pos' opts' args'
    simp [scanGo, h1, h2, h3, h4, h5]
  | case7 arg i prev pos opts args h1 h2 =>
    intro pos' opts' args'
    simp [scanGo, h1, h2]
  | case8 next rest2 i prev pos opts args ih =>
    intro pos' opts' args'
    simp only [scanGo, if_pos rfl]
    exact ih pos' opts' args'
  | case9 arg next rest2 i prev pos opts args h1 h2 h3 ih =>
    intro pos' opts' args'
    simp only [scanGo, if_neg h1, if_pos h2, if_pos h3]
    rw [ih (pos' ++ [arg]) opts' args', ih ([] ++ [arg]) [] []]
    cases scanGo (next :: rest2) (i + 1) arg [] [] [] <;> simp
  | case10 arg next rest2 i prev pos opts args h1 h2 h3 h4 =>
    intro pos' opts' args'
    simp only [scanGo, if_neg h1, if_pos h2, if_neg h3, h4]
    rfl
  | case11 arg next rest2 i prev pos opts args h1 h2 h3 pc h4 h5 ih =>
    intro pos' opts' args'
    simp only [scanGo, if_neg h1, if_pos h2, if_neg h3, h4, if_pos h5]
    rw [ih (pos' ++ [arg]) opts' args', ih ([] ++ [arg]) [] []]
    cases scanGo (next :: rest2) (i + 1) arg [] [] [] <;> simp
  | case12 arg next rest2 i prev pos opts args h1 h2 h3 pc h4 h5 ih =>
    intro pos' opts' args'
    simp only [scanGo, if_neg h1, if_pos h2, if_neg h3, h4, if_neg h5]
    rw [ih pos' (opts' ++ [arg]) args', ih [] ([] ++ [arg]) []]
    cases scanGo (next :: rest2) (i + 1) arg [] [] [] <;> simp
  | case13 arg next rest2 i prev pos opts args h1 h2 h3 =>
    intro pos' opts' args'
    simp only [scanGo, if_neg h1, if_neg h2, h3]
    rfl
  | case14 arg next rest2 i prev pos opts args h1 h2 nc h3 h4 ih =>
    intro pos' opts' args'
    simp only [scanGo, if_neg h1, if_neg h2, h3, if_pos h4]
    rw [ih pos' opts' (args' ++ [[(arg, next)]]), ih [] [] ([] ++ [[(arg, next)]])]
    cases scanGo rest2 (i + 2) next [] [] [] <;> simp
  | case15 arg next rest2 i prev pos opts args h1 h2 nc h3 h4 ih =>
    intro pos' opts' args'
    simp only [scanGo, if_neg h1, if_neg h2, h3, if_neg h4]
    rw [ih pos' (opts' ++ [arg]) args', ih [] ([] ++ [arg]) []]
    cases scanGo (next :: rest2) (i + 1) arg [] [] [] <;> simp

/-- C5 as stated is violated by the code: Parse appends to the collections
without clearing them, so a second Parse of the same input doubles every
collection instead of leaving it unchanged. -/
theorem reparse_not_idempotent :
    Parse (NewParser (some ["a"])) none = some (Parser.mk ["a"] ["a"] [] []) ∧
    Parse (Parser.mk ["a"] ["a"] [] []) none = some (Parser.mk ["a"] ["a", "a"] [] []) ∧
    (["a", "a"] : List String) ≠ ["a"] :=
  ⟨rfl, rfl, by decide⟩

/-- C5 amended: a second Parse on a parser that has parsed its input
re-runs the scan and appends the same entries again, so each collection
becomes its first-parse value concatenated with itself (and the raw
arguments are unchanged); the collections are unchanged only when the
input contributes no entries. -/
theorem reparse_duplicates_collections (ts : List String) (p p' : Parser)
    (h1 : Parse (NewParser (some ts)) none = some p)
    (h2 : Parse p none = some p') :
    p'.rawArgs = p.rawArgs ∧ p'.positional = p.positional ++ p.positional ∧
      p'.options = p.options ++ p.options ∧ p'.args = p.args ++ p.args := by
  simp only [Parse, NewParser] at h1
  rcases hs : scanGo ts 0 "" [] [] [] with _ | ⟨P, O, A⟩ <;> rw [hs] at h1
  · exact Option.noConfusion h1
  · simp only [Option.some.injEq] at h1
    subst h1
    simp only [Parse] at h2
    rw [scanGo_shift ts 0 "" [] [] [] P O A, hs] at h2
    simp only [Option.map_some', Option.some.injEq] at h2
    subst h2
    exact ⟨rfl, rfl, rfl, rfl⟩

/-- Witness for the amended C5 at input `["a"]`. -/
theorem reparse_duplicates_collections_witness :
    Parse (NewParser (some ["a"])) none = some (Parser.mk ["a"] ["a"] [] []) ∧
    Parse (Parser.mk ["a"] ["a"] [] []) none = some (Parser.mk ["a"] ["a", "a"] [] []) ∧
    ((Parser.mk ["a"] ["a", "a"] [] []).rawArgs = (Parser.mk ["a"] ["a"] [] []).rawArgs ∧
      (Parser.mk ["a"] ["a", "a"] [] []).positional =
        (Parser.mk ["a"] ["a"] [] []).positional ++ (Parser.mk ["a"] ["a"] [] []).positional ∧
      (Parser.mk ["a"] ["a", "a"] [] []).options =
        (Parser.mk ["a"] ["a"] [] []).options ++ (Parser.mk ["a"] ["a"] [] []).options ∧
      (Parser.mk ["a"] ["a", "a"] [] []).args =
        (Parser.mk ["a"] ["a"] [] []).args ++ (Parser.mk ["a"] ["a"] [] []).args) :=
  ⟨rfl, rfl, reparse_duplicates_collections ["a"] _ _ rfl rfl⟩

/-! ### Claim C4: lookback versus consumption tracking -/

theorem flagLikeT_eq_false {s : String} (h : byte0 s ≠ some flagMarker) :
    flagLikeT s = false := by
  simp [flagLikeT, h]

theorem flagLikeT_eq_true {s : String} (h : byte0 s = some flagMarker) :
    flagLikeT s = true := by
  simp [flagLikeT, h]

/-- On every completing run, the source's scan — classifying positionals by
the previous token's flag-likeness — produces the collections of the
consumption-tracking reference classifier.  The `lookbackSafe` hypothesis
is the loop invariant; it holds at the start of the scan. -/
theorem scanGo_refGo (l : List String) (i : Nat) (prev : String)
    (pos opts : List String) (args : List ArgEntry) :
    ∀ P O A, lookbackSafe i prev l → scanGo l i prev pos opts args = some (P, O, A) →
      refGo false l pos opts args = (P, O, A) := by
  induction l, i, prev, pos, opts, args using scanGo.induct with
  | case1 i prev pos opts args =>
    intro P O A hS h
    simp only [scanGo, Option.some.injEq, Prod.mk.injEq] at h
    obtain ⟨rfl, rfl, rfl⟩ := h
    rfl
  | case2 i prev pos opts args =>
    intro P O A hS h
    simp only [scanGo, if_pos rfl, Option.some.injEq, Prod.mk.injEq] at h
    obtain ⟨rfl, rfl, rfl⟩ := h
    rfl
  | case3 arg i prev pos opts args h1 h2 h3 =>
    intro P O A hS h
    simp only [scanGo, if_neg h1, if_pos h2, if_pos h3, Option.some.injEq,
      Prod.mk.injEq] at h
    obtain ⟨rfl, rfl, rfl⟩ := h
    simp [refGo, h1, flagLikeT_eq_false h2]
  | case4 arg i prev pos opts args h1 h2 h3 h4 =>
    intro P O A hS h
    simp only [scanGo, if_neg h1, if_pos h2, if_neg h3, h4] at h
    exact Option.noConfusion h
  | case5 arg i prev pos opts args h1 h2 h3 pc h4 h5 =>
    intro P O A hS h
    simp only [scanGo, if_neg h1, if_pos h2, if_neg h3, h4, if_pos h5,
      Option.some.injEq, Prod.mk.injEq] at h
    obtain ⟨rfl, rfl, rfl⟩ := h
    simp [refGo, h1, flagLikeT_eq_false h2]
  | case6 arg i prev pos opts args h1 h2 h3 pc h4 h5 =>
    intro P O A hS h
    rcases hS with hS | hS | hS
    · exact absurd hS h3
    · exact absurd h4 (by simpa [not_not.1 h5] using hS)
    · exact absurd (hS arg rfl) h2
  | case7 arg i prev pos opts args h1 h2 =>
    intro P O A hS h
    simp only [scanGo, if_neg h1, if_neg h2, Option.some.injEq, Prod.mk.injEq] at h
    obtain ⟨rfl, rfl, rfl⟩ := h
    simp [refGo, h1, flagLikeT_eq_true (not_not.1 h2)]
  | case8 next rest2 i prev pos opts args ih =>
    intro P O A hS h
    simp only [scanGo, if_pos rfl] at h
    have hS' : lookbackSafe (i + 1) "" (next :: rest2) := by
      right; left; simp [byte0]
    simpa [refGo] using ih P O A hS' h
  | case9 arg next rest2 i prev pos opts args h1 h2 h3 ih =>
    intro P O A hS h
    simp only [scanGo, if_neg h1, if_pos h2, if_pos h3] at h
    have hS' : lookbackSafe (i + 1) arg (next :: rest2) := Or.inr (Or.inl h2)
    have := ih P O A hS' h
    simpa [refGo, h1, flagLikeT_eq_false h2] using this
  | case10 arg next rest2 i prev pos opts args h1 h2 h3 h4 =>
    intro P O A hS h
    simp only [scanGo, if_neg h1, if_pos h2, if_neg h3, h4] at h
    exact Option.noConfusion h
  | case11 arg next rest2 i prev pos opts args h1 h2 h3 pc h4 h5 ih =>
    intro P O A hS h
    simp only [scanGo, if_neg h1, if_pos h2, if_neg h3, h4, if_pos h5] at h
    have hS' : lookbackSafe (i + 1) arg (next :: rest2) := Or.inr (Or.inl h2)
    have := ih P O A hS' h
    simpa [refGo, h1, flagLikeT_eq_false h2] using this
  | case12 arg next rest2 i prev pos opts args h1 h2 h3 pc h4 h5 ih =>
    intro P O A hS h
    rcases hS with hS | hS | hS
    · exact absurd hS h3
    · exact absurd h4 (by simpa [not_not.1 h5] using hS)
    · exact absurd (hS arg rfl) h2
  | case13 arg next rest2 i prev pos opts args h1 h2 h3 =>
    intro P O A hS h
    simp only [scanGo, if_neg h1, if_neg h2, h3] at h
    exact Option.noConfusion h
  | case14 arg next rest2 i prev pos opts args h1 h2 nc h3 h4 ih =>
    intro P O A hS h
    simp only [scanGo, if_neg h1, if_neg h2, h3, if_pos h4] at h
    have hS' : lookbackSafe (i + 2) next rest2 := by
      right; left
      simp [h3, h4]
    have := ih P O A hS' h
    have hnextf : flagLikeT next = false := flagLikeT_eq_false (by simp [h3, h4])
    simpa [refGo, h1, flagLikeT_eq_true (not_not.1 h2), hnextf] using this
  | case15 arg next rest2 i prev pos opts args h1 h2 nc h3 h4 ih =>
    intro P O A hS h
    simp only [scanGo, if_neg h1, if_neg h2, h3, if_neg h4] at h
    have hS' : lookbackSafe (i + 1) arg (next :: rest2) := by
      right; right
      intro t ht
      obtain rfl := Option.some.inj ht
      rw [h3, not_not.1 h4]
    have := ih P O A hS' h
    have hnextf : flagLikeT next = true := flagLikeT_eq_true (by rw [h3, not_not.1 h4])
    simpa [refGo, h1, flagLikeT_eq_true (not_not.1 h2), hnextf] using this

/-- C4 as stated is violated by the code: on `["a", "", "x"]` the
implemented classifier panics in the lookback (reading byte 0 of the empty
previous token) and produces no collections, while the consumption-tracking
reference classifier completes and classifies `a` and `x` as positional. -/
theorem parse_diverges_from_consumption_tracking :
    parseArgs ["a", "", "x"] = none ∧
    refClassify ["a", "", "x"] = (["a", "x"], [], []) :=
  ⟨rfl, rfl⟩

/-- C4 amended: on every input on which Parse completes, the implemented
classifier produces exactly the collections of the consumption-tracking
reference classifier. -/
theorem parse_matches_consumption_tracking (ts : List String) (p : Parser)
    (h : parseArgs ts = some p) :
    refClassify ts = (p.positional, p.options, p.args) := by
  simp only [parseArgs, Parse, NewParser] at h
  rcases hs : scanGo ts 0 "" [] [] [] with _ | ⟨P, O, A⟩ <;> rw [hs] at h
  · exact Option.noConfusion h
  · simp only [Option.some.injEq] at h
    subst h
    exact scanGo_refGo ts 0 "" [] [] [] P O A (Or.inl (by omega)) hs

/-- Witness for the amended C4 at an input with a positional and an
option. -/
theorem parse_matches_consumption_tracking_witness :
    parseArgs ["a", "-b"] = some (Parser.mk ["a", "-b"] ["a"] ["-b"] []) ∧
    refClassify ["a", "-b"] =
      ((Parser.mk ["a", "-b"] ["a"] ["-b"] []).positional,
       (Parser.mk ["a", "-b"] ["a"] ["-b"] []).options,
       (Parser.mk ["a", "-b"] ["a"] ["-b"] []).args) :=
  ⟨rfl, parse_matches_consumption_tracking ["a", "-b"] _ rfl⟩

end GoArgs
